import Mathlib

/-!
Verification of the audio segmentation / transcription pipeline (`main.go`,
`utils/reset.go`) against its natural-language specification.

Shallow embedding conventions:
* Go `float64` values (times, durations) are modelled as exact rationals `ℚ`;
  the algorithms under study (segment walk, equal-width splitting) only use
  `+ - * /` and comparisons, which are exact on the concrete inputs examined.
* Go strings are modelled as `String` (or `List Char` where the code walks
  over characters); external subprocess invocations (`ffmpeg`, `ffprobe`,
  `whisper-cli.exe`) appear as oracle fields of an environment structure.
* The sequence index that `createSegment` embeds in the generated filename
  (`segment_%03d_%.1f-%.1f.wav`) is kept as an explicit `seqIndex` field.
-/

/-- `AudioSegment` from `main.go`: start/end times, the duration `end - start`,
and the sequence index embedded in the generated filename. The `Filename` /
`FilePath` strings of the Go struct are determined by
`(seqIndex, startTime, endTime)`, so only that data is kept. -/
structure AudioSegment where
  startTime : ℚ
  endTime : ℚ
  duration : ℚ
  seqIndex : ℕ
deriving DecidableEq, Repr

/-- Go zero value of `AudioSegment`. -/
def zeroSegment : AudioSegment := ⟨0, 0, 0, 0⟩

/-- The configuration fields of `AudioAnalyzer` relevant to planning. -/
structure AudioAnalyzer where
  maxWorkers : ℕ
  minSegmentDuration : ℚ
  maxSegmentDuration : ℚ
deriving DecidableEq, Repr

/-- `NewAudioAnalyzer`: `MaxWorkers` ends up `1` (the detected CPU count is
discarded by the constant-propagated branch), `MinSegmentDuration = 30`,
`MaxSegmentDuration = 60`. -/
def newAudioAnalyzer : AudioAnalyzer := ⟨1, 30, 60⟩

/-- `createSegment` from `main.go`: builds a segment record; the filename
components `index`, `start`, `end` are retained via `seqIndex`. -/
def createSegment (s e : ℚ) (index : ℕ) : AudioSegment :=
  ⟨s, e, e - s, index⟩

/-- The raw-segment minimum length used by `CreateSegments`
(`if silenceEnd-currentStart >= 10`, literal `10` at main.go:146; this is the
`minGap` of the specification, distinct from `MinSegmentDuration`). -/
def minGap : ℚ := 10

/-- The loop of `CreateSegments` (main.go:145-151): walks the silence points,
appending `createSegment currentStart b (len segments)` whenever
`b - currentStart ≥ 10`; returns the accumulated segments and the final
`currentStart`. -/
def createSegmentsLoop : ℚ → List AudioSegment → List ℚ → List AudioSegment × ℚ
  | cs, segs, [] => (segs, cs)
  | cs, segs, b :: rest =>
    if minGap ≤ b - cs then
      createSegmentsLoop b (segs ++ [createSegment cs b segs.length]) rest
    else
      createSegmentsLoop cs segs rest

/-- The pure part of `CreateSegments` before `splitLongSegments`
(main.go:142-157): the silence-point walk plus the final-tail rule
(`if totalDuration-currentStart >= 10`). -/
def createSegmentsRaw (totalDuration : ℚ) (silencePoints : List ℚ) :
    List AudioSegment :=
  let p := createSegmentsLoop 0 [] silencePoints
  if minGap ≤ totalDuration - p.2 then
    p.1 ++ [createSegment p.2 totalDuration p.1.length]
  else
    p.1

/-- The inner loop of `splitLongSegments` (main.go:188-200) for one overlong
segment: `numSplits = int(duration/max) + 1` (truncating división of positive
floats, i.e. floor), `splitDuration = duration/numSplits`, part `i` spans
`[start + i*d, start + (i+1)*d)` except the last part which ends at the
original `EndTime`; part `i` gets filename index `base + i`
(`len(result)` at append time). -/
def numSplits (a : AudioAnalyzer) (seg : AudioSegment) : ℕ :=
  (⌊seg.duration / a.maxSegmentDuration⌋).toNat + 1

def splitDur (a : AudioAnalyzer) (seg : AudioSegment) : ℚ :=
  seg.duration / (numSplits a seg : ℚ)

def splitOne (a : AudioAnalyzer) (seg : AudioSegment) (base : ℕ) :
    List AudioSegment :=
  (List.range (numSplits a seg)).map (fun (i : ℕ) =>
    createSegment (seg.startTime + (i : ℚ) * splitDur a seg)
      (if i = numSplits a seg - 1 then seg.endTime
       else seg.startTime + ((i : ℚ) + 1) * splitDur a seg)
      (base + i))

/-- The outer loop of `splitLongSegments` (main.go:183-202): appends a
segment unchanged when `duration ≤ maxSegmentDuration`, otherwise appends the
split block, with filename indices taken from `len(result)`. -/
def splitLongLoop (a : AudioAnalyzer) :
    List AudioSegment → List AudioSegment → List AudioSegment
  | acc, [] => acc
  | acc, seg :: rest =>
    if seg.duration ≤ a.maxSegmentDuration then
      splitLongLoop a (acc ++ [seg]) rest
    else
      splitLongLoop a (acc ++ splitOne a seg acc.length) rest

/-- `splitLongSegments` from `main.go` (lines 180-205). -/
def splitLongSegments (a : AudioAnalyzer) (segments : List AudioSegment) :
    List AudioSegment :=
  splitLongLoop a [] segments

/-- `CreateSegments` (main.go:128-163) with its two external collaborators
(`DetectSilence`, `GetAudioDuration`) replaced by their outputs: the raw
silence-point walk followed by `splitLongSegments`. -/
def CreateSegments (a : AudioAnalyzer) (silencePoints : List ℚ)
    (totalDuration : ℚ) : List AudioSegment :=
  splitLongSegments a (createSegmentsRaw totalDuration silencePoints)

/-- Specification-side planner walk (spec §4.1 steps 1-2, claim C5), with the
sequence index threaded explicitly: close `[currentStart, b)` exactly when
`b - currentStart ≥ minGap`, otherwise skip the boundary. -/
def planWalk : ℚ → ℕ → List ℚ → List AudioSegment
  | _, _, [] => []
  | cs, idx, b :: rest =>
    if minGap ≤ b - cs then
      createSegment cs b idx :: planWalk b (idx + 1) rest
    else
      planWalk cs idx rest

/-- The value of `currentStart` after the planner walk exhausts the
boundaries. -/
def planFinalCs : ℚ → List ℚ → ℚ
  | cs, [] => cs
  | cs, b :: rest =>
    if minGap ≤ b - cs then planFinalCs b rest else planFinalCs cs rest

/-- Specification-side raw plan (spec §4.1 steps 1-4, claim C5): the walk,
then a final segment `[currentStart, totalDuration)` exactly when
`totalDuration - currentStart ≥ minGap`; a shorter tail is dropped. -/
def planSpec (totalDuration : ℚ) (silencePoints : List ℚ) :
    List AudioSegment :=
  let w := planWalk 0 0 silencePoints
  if minGap ≤ totalDuration - planFinalCs 0 silencePoints then
    w ++ [createSegment (planFinalCs 0 silencePoints) totalDuration w.length]
  else
    w

/-- Index-free flattening of `splitLongLoop`: the output of the bounding pass
with the base index threaded arithmetically instead of via the accumulator. -/
def splitFlat (a : AudioAnalyzer) : ℕ → List AudioSegment → List AudioSegment
  | _, [] => []
  | base, seg :: rest =>
    if seg.duration ≤ a.maxSegmentDuration then
      seg :: splitFlat a (base + 1) rest
    else
      splitOne a seg base ++
        splitFlat a (base + (splitOne a seg base).length) rest

/-- The interval `[s.startTime, s.endTime)` of `s` precedes that of `t`. -/
def segBefore (s t : AudioSegment) : Prop := s.endTime ≤ t.startTime

/-- Two segments cover disjoint time intervals. -/
def segsDisjoint (s t : AudioSegment) : Prop :=
  s.endTime ≤ t.startTime ∨ t.endTime ≤ s.startTime

theorem minGap_pos : (0 : ℚ) < minGap := by norm_num [minGap]

theorem le_planFinalCs : ∀ (pts : List ℚ) (cs : ℚ), cs ≤ planFinalCs cs pts := by
  intro pts
  induction pts with
  | nil => intro cs; simp [planFinalCs]
  | cons b rest ih =>
    intro cs
    by_cases h : minGap ≤ b - cs
    · have hcb : cs ≤ b := by
        have := minGap_pos
        linarith
      simp only [planFinalCs, if_pos h]
      exact le_trans hcb (ih b)
    · simp only [planFinalCs, if_neg h]
      exact ih cs

theorem createSegmentsLoop_eq (pts : List ℚ) :
    ∀ (cs : ℚ) (segs : List AudioSegment),
      createSegmentsLoop cs segs pts =
        (segs ++ planWalk cs segs.length pts, planFinalCs cs pts) := by
  induction pts with
  | nil => intro cs segs; simp [createSegmentsLoop, planWalk, planFinalCs]
  | cons b rest ih =>
    intro cs segs
    by_cases h : minGap ≤ b - cs
    · simp only [createSegmentsLoop, planWalk, planFinalCs, if_pos h]
      rw [ih]
      simp [List.append_assoc]
    · simp only [createSegmentsLoop, planWalk, planFinalCs, if_neg h]
      exact ih cs segs

theorem createSegmentsRaw_eq_planSpec (totalDuration : ℚ)
    (silencePoints : List ℚ) :
    createSegmentsRaw totalDuration silencePoints =
      planSpec totalDuration silencePoints := by
  unfold createSegmentsRaw planSpec
  rw [createSegmentsLoop_eq]
  simp

theorem planWalk_props : ∀ (pts : List ℚ) (cs : ℚ) (idx : ℕ),
    (∀ s ∈ planWalk cs idx pts,
        cs ≤ s.startTime ∧ minGap ≤ s.duration ∧
        s.duration = s.endTime - s.startTime ∧
        s.endTime ≤ planFinalCs cs pts) ∧
      (planWalk cs idx pts).Pairwise segBefore := by
  intro pts
  induction pts with
  | nil => intro cs idx; simp [planWalk]
  | cons b rest ih =>
    intro cs idx
    by_cases h : minGap ≤ b - cs
    · simp only [planWalk, planFinalCs, if_pos h]
      obtain ⟨ihmem, ihpw⟩ := ih b (idx + 1)
      constructor
      · intro s hs
        rcases List.mem_cons.mp hs with hs | hs
        · subst hs
          refine ⟨le_refl _, ?_, rfl, le_planFinalCs rest b⟩
          simpa [createSegment] using h
        · obtain ⟨h1, h2, h3, h4⟩ := ihmem s hs
          have hcb : cs ≤ b := by
            have := minGap_pos
            linarith
          exact ⟨le_trans hcb h1, h2, h3, h4⟩
      · refine List.pairwise_cons.mpr ⟨?_, ihpw⟩
        intro t ht
        have h1 := (ihmem t ht).1
        simpa [segBefore, createSegment] using h1
    · simp only [planWalk, planFinalCs, if_neg h]
      exact ih cs idx

theorem createSegmentsRaw_props (totalDuration : ℚ) (silencePoints : List ℚ) :
    (∀ s ∈ createSegmentsRaw totalDuration silencePoints,
        minGap ≤ s.duration ∧ s.duration = s.endTime - s.startTime) ∧
      (createSegmentsRaw totalDuration silencePoints).Pairwise segBefore := by
  rw [createSegmentsRaw_eq_planSpec]
  unfold planSpec
  obtain ⟨hmem, hpw⟩ := planWalk_props silencePoints 0 0
  by_cases h : minGap ≤ totalDuration - planFinalCs 0 silencePoints
  · simp only [if_pos h]
    constructor
    · intro s hs
      rcases List.mem_append.mp hs with hs | hs
      · obtain ⟨_, h2, h3, _⟩ := hmem s hs
        exact ⟨h2, h3⟩
      · rcases List.mem_singleton.mp hs with rfl
        exact ⟨by simpa [createSegment] using h, rfl⟩
    · refine List.pairwise_append.mpr ⟨hpw, List.pairwise_singleton _ _, ?_⟩
      intro s hs t ht
      rcases List.mem_singleton.mp ht with rfl
      have h4 := (hmem s hs).2.2.2
      simpa [segBefore, createSegment] using h4
  · simp only [if_neg h]
    constructor
    · intro s hs
      obtain ⟨_, h2, h3, _⟩ := hmem s hs
      exact ⟨h2, h3⟩
    · exact hpw

theorem numSplits_pos (a : AudioAnalyzer) (seg : AudioSegment) :
    1 ≤ numSplits a seg := by
  unfold numSplits
  omega

theorem splitOne_props (a : AudioAnalyzer) (seg : AudioSegment) (base : ℕ)
    (hmax : 0 < a.maxSegmentDuration)
    (hgt : a.maxSegmentDuration < seg.duration)
    (hds : seg.duration = seg.endTime - seg.startTime) :
    (∀ s ∈ splitOne a seg base,
        s.duration = splitDur a seg ∧
        0 < s.duration ∧ s.duration ≤ a.maxSegmentDuration ∧
        s.duration = s.endTime - s.startTime ∧
        seg.startTime ≤ s.startTime ∧ s.endTime ≤ seg.endTime) ∧
      (splitOne a seg base).Pairwise segBefore := by
  have hD : 0 < seg.duration := lt_trans hmax hgt
  have hfl : 0 ≤ ⌊seg.duration / a.maxSegmentDuration⌋ :=
    Int.floor_nonneg.mpr (le_of_lt (div_pos hD hmax))
  have htn : ((⌊seg.duration / a.maxSegmentDuration⌋.toNat : ℕ) : ℚ) =
      ((⌊seg.duration / a.maxSegmentDuration⌋ : ℤ) : ℚ) := by
    exact_mod_cast Int.toNat_of_nonneg hfl
  have hcast : ((numSplits a seg : ℕ) : ℚ) =
      ((⌊seg.duration / a.maxSegmentDuration⌋ : ℤ) : ℚ) + 1 := by
    unfold numSplits
    push_cast
    rw [htn]
  have hnpos : (0 : ℚ) < ((numSplits a seg : ℕ) : ℚ) := by
    rw [hcast]
    have : (0 : ℚ) ≤ ((⌊seg.duration / a.maxSegmentDuration⌋ : ℤ) : ℚ) := by
      exact_mod_cast hfl
    linarith
  have hlt : seg.duration / a.maxSegmentDuration < ((numSplits a seg : ℕ) : ℚ) := by
    rw [hcast]
    exact Int.lt_floor_add_one _
  have hd_pos : 0 < splitDur a seg := div_pos hD hnpos
  have hd_lt : splitDur a seg < a.maxSegmentDuration := by
    rw [splitDur, div_lt_iff₀ hnpos]
    have h3 : seg.duration < ((numSplits a seg : ℕ) : ℚ) * a.maxSegmentDuration :=
      (div_lt_iff₀ hmax).mp hlt
    linarith [mul_comm ((numSplits a seg : ℕ) : ℚ) a.maxSegmentDuration]
  have hnd : ((numSplits a seg : ℕ) : ℚ) * splitDur a seg = seg.duration := by
    rw [splitDur]
    exact mul_div_cancel₀ _ (ne_of_gt hnpos)
  have hlast : ((numSplits a seg - 1 : ℕ) : ℚ) = ((numSplits a seg : ℕ) : ℚ) - 1 := by
    have h1 := numSplits_pos a seg
    push_cast [Nat.cast_sub h1]
    ring
  have hE : seg.endTime = seg.startTime + seg.duration := by linarith
  have hlastdur : seg.endTime -
      (seg.startTime + ((numSplits a seg - 1 : ℕ) : ℚ) * splitDur a seg) =
      splitDur a seg := by
    rw [hlast, hE, ← hnd]
    ring
  constructor
  · intro s hs
    simp only [splitOne, List.mem_map, List.mem_range] at hs
    obtain ⟨i, hi, rfl⟩ := hs
    by_cases hilast : i = numSplits a seg - 1
    · subst hilast
      simp only [createSegment, eq_self_iff_true, if_true]
      refine ⟨hlastdur, ?_, ?_, ?_, ?_, le_refl _⟩
      · rw [hlastdur]
        exact hd_pos
      · rw [hlastdur]
        exact le_of_lt hd_lt
      · trivial
      · have : (0 : ℚ) ≤ ((numSplits a seg - 1 : ℕ) : ℚ) * splitDur a seg :=
          mul_nonneg (Nat.cast_nonneg _) (le_of_lt hd_pos)
        linarith
    · have hilt : (i : ℚ) + 1 ≤ ((numSplits a seg : ℕ) : ℚ) := by
        have : i + 1 ≤ numSplits a seg := hi
        exact_mod_cast this
      have hif : (if i = numSplits a seg - 1 then seg.endTime
          else seg.startTime + ((i : ℚ) + 1) * splitDur a seg) =
          seg.startTime + ((i : ℚ) + 1) * splitDur a seg := if_neg hilast
      simp only [createSegment, hif]
      have hdur : seg.startTime + ((i : ℚ) + 1) * splitDur a seg -
          (seg.startTime + (i : ℚ) * splitDur a seg) = splitDur a seg := by
        ring
      refine ⟨hdur, ?_, ?_, ?_, ?_, ?_⟩
      · rw [hdur]
        exact hd_pos
      · rw [hdur]
        exact le_of_lt hd_lt
      · trivial
      · have : (0 : ℚ) ≤ (i : ℚ) * splitDur a seg :=
          mul_nonneg (Nat.cast_nonneg _) (le_of_lt hd_pos)
        linarith
      · have h1 : ((i : ℚ) + 1) * splitDur a seg ≤
            ((numSplits a seg : ℕ) : ℚ) * splitDur a seg :=
          mul_le_mul_of_nonneg_right hilt (le_of_lt hd_pos)
        rw [hE, ← hnd]
        linarith
  · unfold splitOne
    rw [List.pairwise_map, List.pairwise_iff_getElem]
    intro p q hp hq hpq
    rw [List.length_range] at hp hq
    simp only [List.getElem_range]
    have hpnl : p ≠ numSplits a seg - 1 := by omega
    simp only [segBefore, createSegment, if_neg hpnl]
    have hjq : (p : ℚ) + 1 ≤ (q : ℚ) := by exact_mod_cast hpq
    have hmono : ((p : ℚ) + 1) * splitDur a seg ≤ (q : ℚ) * splitDur a seg :=
      mul_le_mul_of_nonneg_right hjq (le_of_lt hd_pos)
    linarith
theorem splitLongLoop_eq (a : AudioAnalyzer) :
    ∀ (l acc : List AudioSegment),
      splitLongLoop a acc l = acc ++ splitFlat a acc.length l := by
  intro l
  induction l with
  | nil => intro acc; simp [splitLongLoop, splitFlat]
  | cons seg rest ih =>
    intro acc
    by_cases h : seg.duration ≤ a.maxSegmentDuration
    · simp only [splitLongLoop, splitFlat, if_pos h]
      rw [ih]
      simp [List.append_assoc]
    · simp only [splitLongLoop, splitFlat, if_neg h]
      rw [ih]
      simp [List.append_assoc]

theorem splitFlat_mem (a : AudioAnalyzer) (hmax : 0 < a.maxSegmentDuration) :
    ∀ (l : List AudioSegment) (base : ℕ),
      (∀ s ∈ l, 0 < s.duration ∧ s.duration = s.endTime - s.startTime) →
      ∀ t ∈ splitFlat a base l,
        (∃ u ∈ l, u.startTime ≤ t.startTime ∧ t.endTime ≤ u.endTime) ∧
        0 < t.duration ∧ t.duration ≤ a.maxSegmentDuration ∧
        t.duration = t.endTime - t.startTime := by
  intro l
  induction l with
  | nil => intro base _ t ht; simp [splitFlat] at ht
  | cons seg rest ih =>
    intro base hl t ht
    obtain ⟨hsegpos, hsegdur⟩ := hl seg (by simp)
    have hrest : ∀ s ∈ rest, 0 < s.duration ∧ s.duration = s.endTime - s.startTime :=
      fun s hs => hl s (by simp [hs])
    by_cases h : seg.duration ≤ a.maxSegmentDuration
    · simp only [splitFlat, if_pos h] at ht
      rcases List.mem_cons.mp ht with rfl | htr
      · exact ⟨⟨t, by simp, le_refl _, le_refl _⟩, hsegpos, h, hsegdur⟩
      · obtain ⟨⟨u, hu, h1, h2⟩, h3⟩ := ih (base + 1) hrest t htr
        exact ⟨⟨u, by simp [hu], h1, h2⟩, h3⟩
    · simp only [splitFlat, if_neg h] at ht
      rcases List.mem_append.mp ht with htr | htr
      · have hprops := splitOne_props a seg base hmax (lt_of_not_le h) hsegdur
        obtain ⟨_, hpos, hle, hdur, hs1, hs2⟩ := hprops.1 t htr
        exact ⟨⟨seg, by simp, hs1, hs2⟩, hpos, hle, hdur⟩
      · obtain ⟨⟨u, hu, h1, h2⟩, h3⟩ := ih _ hrest t htr
        exact ⟨⟨u, by simp [hu], h1, h2⟩, h3⟩

theorem splitFlat_pairwise (a : AudioAnalyzer) (hmax : 0 < a.maxSegmentDuration) :
    ∀ (l : List AudioSegment) (base : ℕ),
      (∀ s ∈ l, 0 < s.duration ∧ s.duration = s.endTime - s.startTime) →
      l.Pairwise segBefore →
      (splitFlat a base l).Pairwise segBefore := by
  intro l
  induction l with
  | nil => intro base _ _; simp [splitFlat]
  | cons seg rest ih =>
    intro base hl hpw
    obtain ⟨hhead, hpwrest⟩ := List.pairwise_cons.mp hpw
    have hrest : ∀ s ∈ rest, 0 < s.duration ∧ s.duration = s.endTime - s.startTime :=
      fun s hs => hl s (by simp [hs])
    have hsegd := hl seg (by simp)
    by_cases h : seg.duration ≤ a.maxSegmentDuration
    · simp only [splitFlat, if_pos h]
      refine List.pairwise_cons.mpr ⟨?_, ih (base + 1) hrest hpwrest⟩
      intro t ht
      obtain ⟨⟨u, hu, h1, _⟩, _⟩ := splitFlat_mem a hmax rest (base + 1) hrest t ht
      have h5 : seg.endTime ≤ u.startTime := hhead u hu
      show seg.endTime ≤ t.startTime
      linarith
    · simp only [splitFlat, if_neg h]
      have hprops := splitOne_props a seg base hmax (lt_of_not_le h) hsegd.2
      refine List.pairwise_append.mpr ⟨hprops.2, ih _ hrest hpwrest, ?_⟩
      intro x hx t ht
      obtain ⟨_, _, _, _, _, hx2⟩ := hprops.1 x hx
      obtain ⟨⟨u, hu, h1, _⟩, _⟩ := splitFlat_mem a hmax rest _ hrest t ht
      have h5 : seg.endTime ≤ u.startTime := hhead u hu
      show x.endTime ≤ t.startTime
      linarith

theorem createSegmentsRaw_conds (totalDuration : ℚ) (silencePoints : List ℚ) :
    ∀ s ∈ createSegmentsRaw totalDuration silencePoints,
      0 < s.duration ∧ s.duration = s.endTime - s.startTime := by
  intro s hs
  obtain ⟨h1, h2⟩ := (createSegmentsRaw_props totalDuration silencePoints).1 s hs
  exact ⟨lt_of_lt_of_le minGap_pos h1, h2⟩

theorem createSegments_eq_splitFlat (a : AudioAnalyzer) (silencePoints : List ℚ)
    (totalDuration : ℚ) :
    CreateSegments a silencePoints totalDuration =
      splitFlat a 0 (createSegmentsRaw totalDuration silencePoints) := by
  unfold CreateSegments splitLongSegments
  rw [splitLongLoop_eq]
  simp

/-- Claim C1: for every analyzer with positive `maxSegmentDuration`, every
non-negative `totalDuration` and every (possibly unsorted or duplicated)
silence-point list, the plan produced by `CreateSegments` (the silence walk
followed by `splitLongSegments`) contains no two overlapping segments, and
every segment's duration lies in `(0, maxSegmentDuration]`. -/
theorem C1_plan_disjoint_and_bounded (a : AudioAnalyzer) (silencePoints : List ℚ)
    (totalDuration : ℚ) (hmax : 0 < a.maxSegmentDuration)
    (hT : 0 ≤ totalDuration) :
    (CreateSegments a silencePoints totalDuration).Pairwise segsDisjoint ∧
      ∀ s ∈ CreateSegments a silencePoints totalDuration,
        0 < s.duration ∧ s.duration ≤ a.maxSegmentDuration := by
  have hconds := createSegmentsRaw_conds totalDuration silencePoints
  have hpw := (createSegmentsRaw_props totalDuration silencePoints).2
  rw [createSegments_eq_splitFlat]
  constructor
  · exact (splitFlat_pairwise a hmax _ 0 hconds hpw).imp (fun h => Or.inl h)
  · intro s hs
    obtain ⟨_, hpos, hle, _⟩ := splitFlat_mem a hmax _ 0 hconds s hs
    exact ⟨hpos, hle⟩

/-- Witness for C1 at the end-to-end example of spec §8 (duration 100,
silence points `[12, 45, 90]`). -/
theorem C1_plan_disjoint_and_bounded_witness :
    (0 : ℚ) < newAudioAnalyzer.maxSegmentDuration ∧ (0 : ℚ) ≤ 100 ∧
    ((CreateSegments newAudioAnalyzer [12, 45, 90] 100).Pairwise segsDisjoint ∧
      ∀ s ∈ CreateSegments newAudioAnalyzer [12, 45, 90] 100,
        0 < s.duration ∧ s.duration ≤ newAudioAnalyzer.maxSegmentDuration) :=
  ⟨by norm_num [newAudioAnalyzer], by norm_num,
    C1_plan_disjoint_and_bounded newAudioAnalyzer [12, 45, 90] 100
      (by norm_num [newAudioAnalyzer]) (by norm_num)⟩

/-- Claim C5: the planner walk closes a segment `[currentStart, b)` at a
candidate boundary `b` exactly when `b - currentStart ≥ minGap` (advancing
`currentStart` to `b`), otherwise skips the boundary; after exhausting the
boundaries it closes `[currentStart, totalDuration)` exactly when
`totalDuration - currentStart ≥ minGap`, and a shorter tail produces no
segment: the source loop `createSegmentsRaw` coincides with the
specification-side walk `planSpec` on every input. -/
theorem C5_walk_matches_spec (totalDuration : ℚ) (silencePoints : List ℚ) :
    createSegmentsRaw totalDuration silencePoints =
      planSpec totalDuration silencePoints :=
  createSegmentsRaw_eq_planSpec totalDuration silencePoints

theorem numSplits_cast_pos (a : AudioAnalyzer) (seg : AudioSegment) :
    (0 : ℚ) < ((numSplits a seg : ℕ) : ℚ) :=
  Nat.cast_pos.mpr (numSplits_pos a seg)

theorem numSplits_mul_splitDur (a : AudioAnalyzer) (seg : AudioSegment) :
    ((numSplits a seg : ℕ) : ℚ) * splitDur a seg = seg.duration := by
  rw [splitDur]
  exact mul_div_cancel₀ _ (ne_of_gt (numSplits_cast_pos a seg))

theorem splitDur_pos (a : AudioAnalyzer) (seg : AudioSegment)
    (hD : 0 < seg.duration) : 0 < splitDur a seg :=
  div_pos hD (numSplits_cast_pos a seg)

theorem splitFlat_id (a : AudioAnalyzer) :
    ∀ (l : List AudioSegment) (base : ℕ),
      (∀ s ∈ l, s.duration ≤ a.maxSegmentDuration) → splitFlat a base l = l := by
  intro l
  induction l with
  | nil => intro base _; simp [splitFlat]
  | cons seg rest ih =>
    intro base hl
    simp only [splitFlat, if_pos (hl seg (by simp))]
    rw [ih (base + 1) (fun s hs => hl s (by simp [hs]))]

theorem splitLongSegments_id (a : AudioAnalyzer) (l : List AudioSegment)
    (hl : ∀ s ∈ l, s.duration ≤ a.maxSegmentDuration) :
    splitLongSegments a l = l := by
  unfold splitLongSegments
  rw [splitLongLoop_eq]
  simp [splitFlat_id a l 0 hl]

theorem splitOne_length (a : AudioAnalyzer) (seg : AudioSegment) (base : ℕ) :
    (splitOne a seg base).length = numSplits a seg := by
  simp [splitOne]

/-- Counterexample to claim C2 as stated: for a segment whose duration is an
exact multiple of `maxSegmentDuration` (here `120` against `60`), the code
computes `numSplits = int(120/60) + 1 = 3` sub-segments, while
`ceil(120/60) = 2`; so the bounding pass does not split into
`ceil(duration/maxSegmentDuration)` parts. -/
theorem C2_cex_exact_multiple :
    (splitLongSegments newAudioAnalyzer [createSegment 0 120 0]).length = 3 ∧
      ⌈(createSegment 0 120 0).duration /
          newAudioAnalyzer.maxSegmentDuration⌉ = 2 := by
  constructor
  · norm_num [splitLongSegments, splitLongLoop, createSegment, splitOne,
      numSplits, splitDur, newAudioAnalyzer] <;> decide
  · norm_num [createSegment, newAudioAnalyzer]

/-- Claim C2 (amended): for a segment with `duration > maxSegmentDuration`,
the bounding pass splits it into `floor(duration/maxSegmentDuration) + 1`
equal-width sub-segments (this equals `ceil(duration/maxSegmentDuration)`
except when the duration is an exact multiple, where it is one more); the
sub-segments' boundaries are strictly increasing and consecutive (each part's
end is the next part's start), their durations are all `splitDur` and sum
exactly to the original duration, the first part starts at the original
start, the last part ends at the original end, and segments with
`duration ≤ maxSegmentDuration` pass through unchanged. -/
theorem C2_amended_equal_split (a : AudioAnalyzer) (seg : AudioSegment)
    (hmax : 0 < a.maxSegmentDuration)
    (hgt : a.maxSegmentDuration < seg.duration)
    (hds : seg.duration = seg.endTime - seg.startTime) :
    splitLongSegments a [seg] = splitOne a seg 0 ∧
    (splitOne a seg 0).length =
      (⌊seg.duration / a.maxSegmentDuration⌋).toNat + 1 ∧
    (∀ s ∈ splitOne a seg 0, s.duration = splitDur a seg) ∧
    ((splitOne a seg 0).map AudioSegment.duration).sum = seg.duration ∧
    ((splitOne a seg 0).getD 0 zeroSegment).startTime = seg.startTime ∧
    ((splitOne a seg 0).getD (numSplits a seg - 1) zeroSegment).endTime =
      seg.endTime ∧
    List.Chain' (fun s t => s.endTime = t.startTime) (splitOne a seg 0) ∧
    (splitOne a seg 0).Pairwise (fun s t => s.startTime < t.startTime) ∧
    (∀ l : List AudioSegment, (∀ s ∈ l, s.duration ≤ a.maxSegmentDuration) →
      splitLongSegments a l = l) := by
  have hD : 0 < seg.duration := lt_trans hmax hgt
  have hd_pos := splitDur_pos a seg hD
  have hprops := splitOne_props a seg 0 hmax hgt hds
  have hlen := splitOne_length a seg 0
  refine ⟨?_, ?_, ?_, ?_, ?_, ?_, ?_, ?_, ?_⟩
  · simp only [splitLongSegments, splitLongLoop, if_neg (not_le.mpr hgt)]
    simp
  · rw [hlen]
    rfl
  · intro s hs
    exact (hprops.1 s hs).1
  · have hmap : (splitOne a seg 0).map AudioSegment.duration =
        List.replicate (numSplits a seg) (splitDur a seg) := by
      refine List.eq_replicate_iff.mpr ⟨by simp [hlen], ?_⟩
      intro b hb
      obtain ⟨s, hs, rfl⟩ := List.mem_map.mp hb
      exact (hprops.1 s hs).1
    rw [hmap]
    rw [List.sum_replicate, nsmul_eq_mul]
    exact numSplits_mul_splitDur a seg
  · have h0 : 0 < (splitOne a seg 0).length := by
      rw [hlen]
      exact numSplits_pos a seg
    rw [List.getD_eq_getElem _ _ h0]
    simp [splitOne, List.getElem_map, List.getElem_range, createSegment]
  · have hnl : numSplits a seg - 1 < (splitOne a seg 0).length := by
      rw [hlen]
      have := numSplits_pos a seg
      omega
    rw [List.getD_eq_getElem _ _ hnl]
    simp [splitOne, List.getElem_map, List.getElem_range, createSegment]
  · rw [List.chain'_iff_get]
    intro i h
    rw [hlen] at h
    have hi1 : i + 1 < numSplits a seg := by omega
    have hinl : i ≠ numSplits a seg - 1 := by omega
    have hgi : (splitOne a seg 0).get ⟨i, by rw [hlen]; omega⟩ =
        createSegment (seg.startTime + (i : ℚ) * splitDur a seg)
          (seg.startTime + ((i : ℚ) + 1) * splitDur a seg) (0 + i) := by
      simp [splitOne, List.getElem_map, List.getElem_range, if_neg hinl]
    have hgi1 : (splitOne a seg 0).get ⟨i + 1, by rw [hlen]; omega⟩ =
        createSegment (seg.startTime + ((i + 1 : ℕ) : ℚ) * splitDur a seg)
          (if i + 1 = numSplits a seg - 1 then seg.endTime
           else seg.startTime + (((i + 1 : ℕ) : ℚ) + 1) * splitDur a seg)
          (0 + (i + 1)) := by
      simp [splitOne, List.getElem_map, List.getElem_range]
    rw [hgi, hgi1]
    simp only [createSegment]
    push_cast
    ring
  · rw [List.pairwise_iff_get]
    intro i j hij
    have hi : (i : ℕ) < numSplits a seg := by rw [← hlen]; exact i.isLt
    have hj : (j : ℕ) < numSplits a seg := by rw [← hlen]; exact j.isLt
    have hgi : ((splitOne a seg 0).get i).startTime =
        seg.startTime + ((i : ℕ) : ℚ) * splitDur a seg := by
      simp [splitOne, List.getElem_map, List.getElem_range, createSegment]
    have hgj : ((splitOne a seg 0).get j).startTime =
        seg.startTime + ((j : ℕ) : ℚ) * splitDur a seg := by
      simp [splitOne, List.getElem_map, List.getElem_range, createSegment]
    rw [hgi, hgj]
    have hq : ((i : ℕ) : ℚ) < ((j : ℕ) : ℚ) := by exact_mod_cast hij
    have := mul_lt_mul_of_pos_right hq hd_pos
    linarith
  · intro l hl
    exact splitLongSegments_id a l hl

/-- Witness for the amended C2 at a segment of duration `130` against the
default `maxSegmentDuration = 60` (three parts of `130/3` each). -/
theorem C2_amended_equal_split_witness :
    (0 : ℚ) < newAudioAnalyzer.maxSegmentDuration ∧
    newAudioAnalyzer.maxSegmentDuration < (createSegment 0 130 0).duration ∧
    (createSegment 0 130 0).duration =
      (createSegment 0 130 0).endTime - (createSegment 0 130 0).startTime ∧
    (splitLongSegments newAudioAnalyzer [createSegment 0 130 0] =
        splitOne newAudioAnalyzer (createSegment 0 130 0) 0 ∧
      (splitOne newAudioAnalyzer (createSegment 0 130 0) 0).length =
        (⌊(createSegment 0 130 0).duration /
            newAudioAnalyzer.maxSegmentDuration⌋).toNat + 1 ∧
      (∀ s ∈ splitOne newAudioAnalyzer (createSegment 0 130 0) 0,
          s.duration = splitDur newAudioAnalyzer (createSegment 0 130 0)) ∧
      ((splitOne newAudioAnalyzer (createSegment 0 130 0) 0).map
          AudioSegment.duration).sum = (createSegment 0 130 0).duration ∧
      ((splitOne newAudioAnalyzer (createSegment 0 130 0) 0).getD 0
          zeroSegment).startTime = (createSegment 0 130 0).startTime ∧
      ((splitOne newAudioAnalyzer (createSegment 0 130 0) 0).getD
          (numSplits newAudioAnalyzer (createSegment 0 130 0) - 1)
          zeroSegment).endTime = (createSegment 0 130 0).endTime ∧
      List.Chain' (fun s t => s.endTime = t.startTime)
        (splitOne newAudioAnalyzer (createSegment 0 130 0) 0) ∧
      (splitOne newAudioAnalyzer (createSegment 0 130 0) 0).Pairwise
        (fun s t => s.startTime < t.startTime) ∧
      (∀ l : List AudioSegment,
          (∀ s ∈ l, s.duration ≤ newAudioAnalyzer.maxSegmentDuration) →
          splitLongSegments newAudioAnalyzer l = l)) :=
  ⟨by norm_num [newAudioAnalyzer], by norm_num [newAudioAnalyzer, createSegment],
    by norm_num [createSegment],
    C2_amended_equal_split newAudioAnalyzer (createSegment 0 130 0)
      (by norm_num [newAudioAnalyzer])
      (by norm_num [newAudioAnalyzer, createSegment])
      (by norm_num [createSegment])⟩

theorem splitFlat_getD_index (a : AudioAnalyzer) :
    ∀ (l : List AudioSegment) (base i : ℕ),
      i < (splitFlat a base l).length →
      (splitFlat a base l).getD i zeroSegment ∈ l ∨
        ((splitFlat a base l).getD i zeroSegment).seqIndex = base + i := by
  intro l
  induction l with
  | nil => intro base i h; simp [splitFlat] at h
  | cons seg rest ih =>
    intro base i h
    by_cases hc : seg.duration ≤ a.maxSegmentDuration
    · simp only [splitFlat, if_pos hc] at h ⊢
      cases i with
      | zero => left; simp
      | succ j =>
        have hj : j < (splitFlat a (base + 1) rest).length := by
          simpa using h
        have hgd : (seg :: splitFlat a (base + 1) rest).getD (j + 1) zeroSegment =
            (splitFlat a (base + 1) rest).getD j zeroSegment := rfl
        rw [hgd]
        rcases ih (base + 1) j hj with h1 | h1
        · left
          exact List.mem_cons_of_mem seg h1
        · right
          omega
    · simp only [splitFlat, if_neg hc] at h ⊢
      by_cases hib : i < (splitOne a seg base).length
      · right
        rw [List.getD_append _ _ _ _ hib, List.getD_eq_getElem _ _ hib]
        have hin : i < numSplits a seg := by
          rwa [splitOne_length] at hib
        simp [splitOne, List.getElem_map, List.getElem_range, createSegment]
      · have hib2 : (splitOne a seg base).length ≤ i := not_lt.mp hib
        have hj : i - (splitOne a seg base).length <
            (splitFlat a (base + (splitOne a seg base).length) rest).length := by
          simp only [List.length_append] at h
          omega
        rw [List.getD_append_right _ _ _ _ hib2]
        rcases ih (base + (splitOne a seg base).length)
            (i - (splitOne a seg base).length) hj with h1 | h1
        · left
          exact List.mem_cons_of_mem seg h1
        · right
          omega

theorem splitLongSegments_eq_splitFlat (a : AudioAnalyzer)
    (segments : List AudioSegment) :
    splitLongSegments a segments = splitFlat a 0 segments := by
  unfold splitLongSegments
  rw [splitLongLoop_eq]
  simp

/-- Counterexample to claim C6 as stated: with the raw plan
`[0,120) (index 0), [120,140) (index 1)]` (reachable from silence point `120`
and total duration `140`), the bounding pass splits the first segment into
three parts carrying indices `0,1,2`, but the second segment passes through
unchanged and keeps its original filename index `1` although it sits at
position `3` of the output; indices are therefore neither renumbered
sequentially nor strictly increasing. -/
theorem C6_cex_pass_through_keeps_index :
    (splitLongSegments newAudioAnalyzer
        [createSegment 0 120 0, createSegment 120 140 1]).length = 4 ∧
    ((splitLongSegments newAudioAnalyzer
        [createSegment 0 120 0, createSegment 120 140 1]).getD 3
        zeroSegment).seqIndex = 1 ∧
    ((splitLongSegments newAudioAnalyzer
        [createSegment 0 120 0, createSegment 120 140 1]).getD 3
        zeroSegment).seqIndex ≠ 3 := by
  refine ⟨?_, ?_, ?_⟩ <;>
    norm_num [splitLongSegments, splitLongLoop, splitOne, numSplits, splitDur,
      createSegment, newAudioAnalyzer, List.getD] <;> decide

/-- Claim C6 (amended): after the bounding pass, every output segment either
is one of the input segments passed through unchanged (keeping its original
filename index), or is a sub-segment produced by splitting, in which case its
filename index equals its position in the output; sequential renumbering
holds only for the split-produced segments. -/
theorem C6_amended_split_indices (a : AudioAnalyzer)
    (segments : List AudioSegment) (i : ℕ)
    (h : i < (splitLongSegments a segments).length) :
    (splitLongSegments a segments).getD i zeroSegment ∈ segments ∨
      ((splitLongSegments a segments).getD i zeroSegment).seqIndex = i := by
  rw [splitLongSegments_eq_splitFlat] at h ⊢
  have := splitFlat_getD_index a segments 0 i h
  simpa using this

/-- Witness for the amended C6: position `1` of the split of `[0,120)` is a
split-produced part carrying index `1`. -/
theorem C6_amended_split_indices_witness :
    1 < (splitLongSegments newAudioAnalyzer [createSegment 0 120 0]).length ∧
    ((splitLongSegments newAudioAnalyzer [createSegment 0 120 0]).getD 1
        zeroSegment ∈ [createSegment 0 120 0] ∨
      ((splitLongSegments newAudioAnalyzer [createSegment 0 120 0]).getD 1
          zeroSegment).seqIndex = 1) :=
  ⟨by norm_num [splitLongSegments, splitLongLoop, splitOne, numSplits,
      splitDur, createSegment, newAudioAnalyzer] <;> decide,
    C6_amended_split_indices newAudioAnalyzer [createSegment 0 120 0] 1
      (by norm_num [splitLongSegments, splitLongLoop, splitOne, numSplits,
        splitDur, createSegment, newAudioAnalyzer] <;> decide)⟩

/-!
`parseSilenceOutput` (main.go:84-103). Go strings are modelled at character
level (`List Char`); `strings.Split(s, "\n")` and `strings.Fields` become
character-list splitters, `strings.Contains` a substring test, and the
external-library call `strconv.ParseFloat` an arbitrary partial parsing
function `pf` (the claim quantifies over whatever floats "successfully
parse").
-/

/-- Character-level splitter: `splitP p l` cuts `l` at every character
satisfying `p`, keeping empty pieces — the semantics of Go
`strings.Split` (with `p` matching the one-character separator) and the raw
pieces of `strings.FieldsFunc`. -/
def splitP (p : Char → Bool) : List Char → List (List Char)
  | [] => [[]]
  | c :: rest =>
    if p c then [] :: splitP p rest
    else (c :: (splitP p rest).headI) :: (splitP p rest).tail

/-- Go `strings.Fields`: the maximal nonempty runs of non-whitespace
characters, i.e. the nonempty pieces of the whitespace split. -/
def fieldsC (l : List Char) : List (List Char) :=
  (splitP (fun c => c.isWhitespace) l).filter (fun t => !t.isEmpty)

/-- Go `strings.TrimSpace` at character level. -/
def trimC (l : List Char) : List Char :=
  ((l.dropWhile Char.isWhitespace).reverse.dropWhile Char.isWhitespace).reverse

/-- Go `strings.Contains l sub`: some suffix of `l` starts with `sub`. -/
def containsSub (sub : List Char) : List Char → Bool
  | [] => List.isPrefixOf sub []
  | c :: rest => List.isPrefixOf sub (c :: rest) || containsSub sub rest

/-- The exact token compared against `parts[i]` (main.go:92). -/
def silenceEndTok : List Char := "silence_end:".toList

/-- The substring searched for in each line (main.go:89). -/
def silenceEndSub : List Char := "silence_end".toList

/-- The inner loop of `parseSilenceOutput` (main.go:91-98): for every
position `i` with `parts[i] = "silence_end:"` and `i+1 < len(parts)`, parse
`TrimSpace(parts[i+1])`; parse failures are skipped. -/
def scanFields (pf : List Char → Option ℚ) : List (List Char) → List ℚ
  | t1 :: t2 :: rest =>
    (if t1 = silenceEndTok then
      (match pf (trimC t2) with
       | some q => [q]
       | none => [])
     else []) ++ scanFields pf (t2 :: rest)
  | _ => []

/-- `parseSilenceOutput` (main.go:84-103): split the output into lines, skip
lines not containing `"silence_end"`, scan the fields of the rest; the error
component of the Go return value is always `nil`. `pf` stands for the
external `strconv.ParseFloat`. -/
def parseSilenceOutput (pf : List Char → Option ℚ) (output : List Char) :
    List ℚ × Option String :=
  ((splitP (fun c => c = '\n') output).foldl
    (fun acc line =>
      if containsSub silenceEndSub line then acc ++ scanFields pf (fieldsC line)
      else acc) [],
   none)

/-- Specification-side extraction: the floats parsed after a
`"silence_end:"` token, over all lines in order, with no line gate. -/
def silencePointsSpec (pf : List Char → Option ℚ) (output : List Char) :
    List ℚ :=
  ((splitP (fun c => c = '\n') output).map
    (fun line => scanFields pf (fieldsC line))).join

theorem splitP_ne_nil (p : Char → Bool) : ∀ l : List Char, splitP p l ≠ [] := by
  intro l
  cases l with
  | nil => simp [splitP]
  | cons c rest =>
    by_cases h : p c
    · simp [splitP, h]
    · simp [splitP, h]

theorem splitP_headI_prefix (p : Char → Bool) :
    ∀ l : List Char, (splitP p l).headI <+: l := by
  intro l
  induction l with
  | nil => simp [splitP]
  | cons c rest ih =>
    by_cases h : p c
    · simp [splitP, h, List.nil_prefix]
    · simp only [splitP, if_neg h]
      show c :: (splitP p rest).headI <+: c :: rest
      obtain ⟨t, ht⟩ := ih
      exact ⟨t, by simp [ht]⟩

theorem containsSub_cons (sub : List Char) (c : Char) (rest : List Char)
    (h : containsSub sub rest = true) : containsSub sub (c :: rest) = true := by
  simp [containsSub, h]

theorem containsSub_of_isPrefixOf (sub l : List Char)
    (h : List.isPrefixOf sub l = true) : containsSub sub l = true := by
  cases l with
  | nil => simpa [containsSub] using h
  | cons c rest => simp [containsSub, h]

theorem containsSub_of_prefix_mem (s : List Char) (p : Char → Bool) :
    ∀ (l x : List Char), x ∈ splitP p l → s <+: x → containsSub s l = true := by
  intro l
  induction l with
  | nil =>
    intro x hx hs
    simp only [splitP, List.mem_singleton] at hx
    subst hx
    have : s = [] := List.prefix_nil.mp hs
    subst this
    rfl
  | cons c rest ih =>
    intro x hx hs
    by_cases h : p c
    · simp only [splitP, if_pos h, List.mem_cons] at hx
      rcases hx with rfl | hx
      · have : s = [] := List.prefix_nil.mp hs
        subst this
        rfl
      · exact containsSub_cons _ _ _ (ih x hx hs)
    · simp only [splitP, if_neg h, List.mem_cons] at hx
      rcases hx with rfl | hx
      · have hhd : (splitP p rest).headI <+: rest := splitP_headI_prefix p rest
        obtain ⟨t, ht⟩ := hhd
        have hx2 : c :: (splitP p rest).headI <+: c :: rest := ⟨t, by simp [ht]⟩
        have : s <+: c :: rest := hs.trans hx2
        exact containsSub_of_isPrefixOf _ _ (List.isPrefixOf_iff_prefix.mpr this)
      · have hx3 : x ∈ splitP p rest := List.mem_of_mem_tail hx
        exact containsSub_cons _ _ _ (ih x hx3 hs)

theorem containsSub_of_tok_mem (line : List Char)
    (h : silenceEndTok ∈ fieldsC line) :
    containsSub silenceEndSub line = true := by
  have h1 : silenceEndTok ∈ splitP (fun c => c.isWhitespace) line :=
    List.mem_of_mem_filter h
  have h2 : silenceEndSub <+: silenceEndTok := by decide
  exact containsSub_of_prefix_mem silenceEndSub _ line silenceEndTok h1 h2

theorem scanFields_eq_nil (pf : List Char → Option ℚ) :
    ∀ parts : List (List Char), (∀ t ∈ parts, t ≠ silenceEndTok) →
      scanFields pf parts = [] := by
  intro parts
  induction parts with
  | nil => intro _; rfl
  | cons t1 rest ih =>
    intro hno
    cases rest with
    | nil => rfl
    | cons t2 rest2 =>
      have h1 : t1 ≠ silenceEndTok := hno t1 (by simp)
      simp only [scanFields, if_neg h1, List.nil_append]
      exact ih (fun t ht => hno t (by simp [ht]))

theorem scanFields_gate (pf : List Char → Option ℚ) (line : List Char)
    (h : containsSub silenceEndSub line = false) :
    scanFields pf (fieldsC line) = [] := by
  refine scanFields_eq_nil pf _ ?_
  intro t ht
  intro heq
  subst heq
  rw [containsSub_of_tok_mem line ht] at h
  simp at h

theorem foldl_append_eq_join {α β : Type} (g : α → List β) :
    ∀ (l : List α) (init : List β),
      l.foldl (fun acc x => acc ++ g x) init = init ++ (l.map g).join := by
  intro l
  induction l with
  | nil => intro init; simp
  | cons x rest ih =>
    intro init
    simp only [List.foldl_cons, List.map_cons, List.join]
    rw [ih]
    simp [List.append_assoc]

/-- Claim C10: `parseSilenceOutput` is total and never returns a non-nil
error: for every parsing oracle `pf` (standing for `strconv.ParseFloat`) and
every input text, it returns exactly the floats that successfully parse after
a `"silence_end:"` token, in order of appearance (the line gate on the
substring `"silence_end"` discards nothing, because any line containing the
exact token also contains the substring), and the error component is `nil`. -/
theorem C10_parse_silence_total (pf : List Char → Option ℚ)
    (output : List Char) :
    parseSilenceOutput pf output = (silencePointsSpec pf output, none) := by
  unfold parseSilenceOutput silencePointsSpec
  refine Prod.ext ?_ rfl
  show (splitP (fun c => c = '\n') output).foldl
      (fun acc line =>
        if containsSub silenceEndSub line then
          acc ++ scanFields pf (fieldsC line)
        else acc) [] = _
  have hfun : (fun (acc : List ℚ) line =>
      if containsSub silenceEndSub line then
        acc ++ scanFields pf (fieldsC line)
      else acc) = (fun acc line =>
      acc ++ (if containsSub silenceEndSub line then
        scanFields pf (fieldsC line) else [])) := by
    funext acc line
    by_cases h : containsSub silenceEndSub line
    · simp [h]
    · simp [h]
  rw [hfun, foldl_append_eq_join]
  have hmap : (splitP (fun c => c = '\n') output).map
      (fun line => if containsSub silenceEndSub line then
        scanFields pf (fieldsC line) else []) =
      (splitP (fun c => c = '\n') output).map
      (fun line => scanFields pf (fieldsC line)) := by
    refine List.map_congr_left ?_
    intro line _
    by_cases h : containsSub silenceEndSub line
    · simp [h]
    · simp only [h, if_false]
      exact (scanFields_gate pf line (by simpa using h)).symm
  rw [hmap]
  simp

/-!
Transcription phase (`ProcessWithCpp`, `transcribeCpp`, `ExtractAudioSegments`,
main.go:208-320). The external world is an environment: whether the sentinel
binary `./whisper.cpp/build/bin/Release/main.exe` exists, whether creating the
output directory succeeds, which segment files the extraction phase managed to
produce, and the outcome of each `whisper-cli.exe` invocation. Concurrency is
modelled by an explicit worker-completion order: each worker writes its own
pre-assigned slot `i` of the result array, and the completion order is an
arbitrary permutation of the slot indices.
-/

/-- `TranscriptionResult` from `main.go`. -/
structure TranscriptionResult where
  segment : AudioSegment
  text : String
  error : String
deriving DecidableEq, Repr

/-- Go zero value of `TranscriptionResult` (the content of
`make([]TranscriptionResult, n)` before the workers write). -/
def zeroResult : TranscriptionResult := ⟨zeroSegment, "", ""⟩

/-- The external collaborators of the extraction/transcription phases. -/
structure TranscribeEnv where
  mainExeExists : Bool
  mkdirOk : Bool
  extractOk : AudioSegment → Bool
  cliRun : AudioSegment → Except String String

/-- Outcome of one `transcribeCpp` call: either the process dies
(`log.Fatal`), or a `(text, error)` pair is produced. -/
inductive TranscribeOutcome
  | fatal
  | res (text err : String)
deriving DecidableEq, Repr

/-- The error-message wrapper of main.go:315
(`fmt.Errorf("C++ whisper transcription failed: %v\n%s", err, output)`);
the exit error and combined output are abstracted into the oracle string. -/
def cppFailMsg (e : String) : String :=
  "C++ whisper transcription failed: " ++ e

/-- `transcribeCpp` (main.go:290-320): if the sentinel `main.exe` is missing,
`log.Fatal` kills the process (`.fatal`); otherwise the `whisper-cli.exe`
invocation either fails (nonzero exit / missing cli binary / missing input
file — all surfacing as `cmd.CombinedOutput` errors, folded into
`env.cliRun`) giving an error result, or succeeds giving
`strings.TrimSpace` of its output. The `GetAudioDuration` re-probe only
feeds a CLI flag and its error is ignored by the code, so it is not
modelled. -/
def transcribeCpp (env : TranscribeEnv) (seg : AudioSegment) :
    TranscribeOutcome :=
  if env.mainExeExists then
    match env.cliRun seg with
    | Except.ok out => TranscribeOutcome.res out.trim ""
    | Except.error e => TranscribeOutcome.res "" (cppFailMsg e)
  else TranscribeOutcome.fatal

/-- The result record a worker stores for its segment
(main.go:265-276): on error, `Error` is set and `Text` stays empty, else
`Text` is set. The `.fatal` fallback is unreachable in the non-fatal branch
of `ProcessWithCpp` below. -/
def mkResult (env : TranscribeEnv) (seg : AudioSegment) :
    TranscriptionResult :=
  match transcribeCpp env seg with
  | TranscribeOutcome.res t e => ⟨seg, t, e⟩
  | TranscribeOutcome.fatal => zeroResult

/-- Overwrite slot `i` of a list (out-of-range writes are dropped; workers
only ever write in range). -/
def setSlot {α : Type} : List α → ℕ → α → List α
  | [], _, _ => []
  | _ :: rest, 0, v => v :: rest
  | x :: rest, n + 1, v => x :: setSlot rest n v

/-- Replay the workers in completion order: worker `i` writes `f i` into
slot `i` (`results[index] = result`, main.go:276). -/
def writeSlots {α : Type} (f : ℕ → α) : List ℕ → List α → List α
  | [], l => l
  | i :: rest, l => writeSlots f rest (setSlot l i (f i))

/-- Insertion step of the deterministic realisation of Go
`sort.Slice(results, less)` with
`less = results[i].Segment.StartTime < results[j].Segment.StartTime`. -/
def insertByStart (r : TranscriptionResult) :
    List TranscriptionResult → List TranscriptionResult
  | [] => [r]
  | x :: rest =>
    if r.segment.startTime < x.segment.startTime then r :: x :: rest
    else x :: insertByStart r rest

/-- Deterministic realisation of the `sort.Slice` call at main.go:283-285
(insertion sort). `sort.Slice` itself only guarantees the contract
`sortSliceSpec` below; for inputs with pairwise-distinct start times (the
planner case) the contract has a unique solution, which this function
computes. -/
def sortByStart : List TranscriptionResult → List TranscriptionResult
  | [] => []
  | x :: rest => insertByStart x (sortByStart rest)

/-- Documented contract of Go `sort.Slice(results, less)`: the output is a
permutation of the input, sorted by `Segment.StartTime`; the sort is NOT
guaranteed to be stable, so nothing beyond this is promised. -/
def sortSliceSpec (input output : List TranscriptionResult) : Prop :=
  output.Perm input ∧
    output.Pairwise (fun x y => x.segment.startTime ≤ y.segment.startTime)

/-- Whole-process outcome of `ProcessWithCpp`: `log.Fatal` inside a worker
kills the run, otherwise a result list is returned. -/
inductive ProcessOutcome
  | fatal
  | done (results : List TranscriptionResult)
deriving DecidableEq, Repr

/-- The returned collection (empty if the process died). -/
def ProcessOutcome.resultsOrNil : ProcessOutcome → List TranscriptionResult
  | ProcessOutcome.fatal => []
  | ProcessOutcome.done rs => rs

/-- `ProcessWithCpp` (main.go:253-288): results are pre-sized to
`len(segments)` zero values; each worker `i` writes slot `i`; if any worker
runs with the sentinel binary missing the process dies (`log.Fatal` in
`transcribeCpp`); finally the slice is sorted by start time. `order` is the
workers' completion order. -/
def ProcessWithCpp (env : TranscribeEnv) (plan : List AudioSegment)
    (order : List ℕ) : ProcessOutcome :=
  if env.mainExeExists = false ∧ plan ≠ [] then ProcessOutcome.fatal
  else ProcessOutcome.done (sortByStart (writeSlots
    (fun i => mkResult env (plan.getD i zeroSegment)) order
    (List.replicate plan.length zeroResult)))

/-- `ExtractAudioSegments` (main.go:208-233): the only error return is the
`os.MkdirAll` failure; per-segment extraction failures are logged inside the
goroutines and discarded (`log.Printf`, main.go:226), never returned. Which
segment files end up on disk is recorded by `env.extractOk`. -/
def ExtractAudioSegments (env : TranscribeEnv)
    (segments : List AudioSegment) : Option String :=
  if env.mkdirOk then none else some "failed to create output directory"

/-- `true` exactly on failed invocations. -/
def exceptFailed : Except String String → Bool
  | Except.error _ => true
  | Except.ok _ => false

theorem setSlot_length {α : Type} :
    ∀ (l : List α) (i : ℕ) (v : α), (setSlot l i v).length = l.length := by
  intro l
  induction l with
  | nil => intro i v; rfl
  | cons x rest ih =>
    intro i v
    cases i with
    | zero => rfl
    | succ n => simp [setSlot, ih]

theorem writeSlots_length {α : Type} (f : ℕ → α) :
    ∀ (order : List ℕ) (l : List α), (writeSlots f order l).length = l.length := by
  intro order
  induction order with
  | nil => intro l; rfl
  | cons i rest ih =>
    intro l
    simp [writeSlots, ih, setSlot_length]

theorem setSlot_getElem? {α : Type} :
    ∀ (l : List α) (i : ℕ) (v : α) (j : ℕ),
      (setSlot l i v)[j]? = if j = i ∧ j < l.length then some v else l[j]? := by
  intro l
  induction l with
  | nil => intro i v j; simp [setSlot]
  | cons x rest ih =>
    intro i v j
    cases i with
    | zero =>
      cases j with
      | zero => simp [setSlot]
      | succ m => simp [setSlot]
    | succ n =>
      cases j with
      | zero => simp [setSlot]
      | succ m =>
        simp only [setSlot, List.getElem?_cons_succ]
        rw [ih n v m]
        by_cases h : m = n ∧ m < rest.length
        · rw [if_pos h, if_pos ⟨by omega, by simp only [List.length_cons]; omega⟩]
        · have hcond : ¬(m + 1 = n + 1 ∧ m + 1 < (x :: rest).length) := by
            rintro ⟨h1, h2⟩
            simp only [List.length_cons] at h2
            exact h ⟨by omega, by omega⟩
          rw [if_neg h, if_neg hcond]

theorem writeSlots_getElem? {α : Type} (f : ℕ → α) :
    ∀ (order : List ℕ) (l : List α) (j : ℕ),
      (writeSlots f order l)[j]? =
        if j ∈ order ∧ j < l.length then some (f j) else l[j]? := by
  intro order
  induction order with
  | nil => intro l j; simp [writeSlots]
  | cons i rest ih =>
    intro l j
    simp only [writeSlots]
    rw [ih]
    rw [setSlot_length]
    by_cases hmem : j ∈ rest ∧ j < l.length
    · simp [hmem, List.mem_cons]
    · rw [if_neg hmem, setSlot_getElem?]
      by_cases hji : j = i ∧ j < l.length
      · rw [if_pos hji, if_pos ⟨by simp [hji.1], hji.2⟩, hji.1]
      · rw [if_neg hji, if_neg ?_]
        rintro ⟨hj1, hj2⟩
        rcases List.mem_cons.mp hj1 with h | h
        · exact hji ⟨h, hj2⟩
        · exact hmem ⟨h, hj2⟩

theorem writeSlots_perm_map {α : Type} (f : ℕ → α) (z : α) (order : List ℕ)
    (n : ℕ) (hord : order.Perm (List.range n)) :
    writeSlots f order (List.replicate n z) = (List.range n).map f := by
  apply List.ext_getElem?
  intro j
  rw [writeSlots_getElem? f order _ j]
  simp only [List.length_replicate]
  by_cases hj : j < n
  · have hmem : j ∈ order := hord.mem_iff.mpr (List.mem_range.mpr hj)
    rw [if_pos ⟨hmem, hj⟩]
    simp [List.getElem?_map, List.getElem?_range, hj]
  · rw [if_neg (fun h => hj h.2)]
    rw [List.getElem?_eq_none (by simpa using not_lt.mp hj),
        List.getElem?_eq_none (by simpa using not_lt.mp hj)]

theorem range_map_getD {α β : Type} (g : α → β) (d : α) :
    ∀ l : List α,
      (List.range l.length).map (fun i => g (l.getD i d)) = l.map g := by
  intro l
  induction l with
  | nil => simp
  | cons x rest ih =>
    simp only [List.length_cons, List.range_succ_eq_map, List.map_cons,
      List.map_map]
    refine congrArg₂ _ rfl ?_
    calc (List.range rest.length).map
          ((fun i => g ((x :: rest).getD i d)) ∘ Nat.succ)
        = (List.range rest.length).map (fun i => g (rest.getD i d)) := rfl
      _ = rest.map g := ih

theorem mkResult_segment (env : TranscribeEnv) (seg : AudioSegment)
    (hexe : env.mainExeExists = true) : (mkResult env seg).segment = seg := by
  unfold mkResult transcribeCpp
  rw [hexe]
  cases env.cliRun seg <;> rfl

theorem mkResult_eq (env : TranscribeEnv) (seg : AudioSegment)
    (hexe : env.mainExeExists = true) :
    mkResult env seg = (match env.cliRun seg with
      | Except.ok out => ⟨seg, out.trim, ""⟩
      | Except.error e => ⟨seg, "", cppFailMsg e⟩) := by
  unfold mkResult transcribeCpp
  rw [hexe]
  cases env.cliRun seg <;> rfl

theorem insertByStart_perm (r : TranscriptionResult) :
    ∀ l, (insertByStart r l).Perm (r :: l) := by
  intro l
  induction l with
  | nil => exact List.Perm.refl _
  | cons x rest ih =>
    by_cases h : r.segment.startTime < x.segment.startTime
    · simp [insertByStart, h]
    · simp only [insertByStart, if_neg h]
      exact (List.Perm.cons x ih).trans (List.Perm.swap r x rest)

theorem sortByStart_perm : ∀ l, (sortByStart l).Perm l := by
  intro l
  induction l with
  | nil => exact List.Perm.refl _
  | cons x rest ih =>
    exact (insertByStart_perm x (sortByStart rest)).trans (List.Perm.cons x ih)

theorem sortByStart_length (l : List TranscriptionResult) :
    (sortByStart l).length = l.length :=
  (sortByStart_perm l).length_eq

theorem insertByStart_sorted (r : TranscriptionResult) :
    ∀ l : List TranscriptionResult,
      l.Pairwise (fun x y => x.segment.startTime ≤ y.segment.startTime) →
      (insertByStart r l).Pairwise
        (fun x y => x.segment.startTime ≤ y.segment.startTime) := by
  intro l
  induction l with
  | nil => intro _; simp [insertByStart]
  | cons x rest ih =>
    intro hpw
    obtain ⟨hx, hrest⟩ := List.pairwise_cons.mp hpw
    by_cases h : r.segment.startTime < x.segment.startTime
    · simp only [insertByStart, if_pos h]
      refine List.pairwise_cons.mpr ⟨?_, hpw⟩
      intro y hy
      rcases List.mem_cons.mp hy with rfl | hy
      · exact le_of_lt h
      · exact le_trans (le_of_lt h) (hx y hy)
    · simp only [insertByStart, if_neg h]
      refine List.pairwise_cons.mpr ⟨?_, ih hrest⟩
      intro y hy
      have hy2 : y ∈ r :: rest := (insertByStart_perm r rest).mem_iff.mp hy
      rcases List.mem_cons.mp hy2 with rfl | hy2
      · exact le_of_not_lt h
      · exact hx y hy2

theorem sortByStart_sorted : ∀ l : List TranscriptionResult,
    (sortByStart l).Pairwise
      (fun x y => x.segment.startTime ≤ y.segment.startTime) := by
  intro l
  induction l with
  | nil => simp [sortByStart]
  | cons x rest ih => exact insertByStart_sorted x _ ih

theorem sortByStart_satisfies_spec (l : List TranscriptionResult) :
    sortSliceSpec l (sortByStart l) :=
  ⟨sortByStart_perm l, sortByStart_sorted l⟩

theorem sortByStart_sorted_id : ∀ l : List TranscriptionResult,
    l.Pairwise (fun x y => x.segment.startTime < y.segment.startTime) →
    sortByStart l = l := by
  intro l
  induction l with
  | nil => intro _; rfl
  | cons x rest ih =>
    intro hpw
    obtain ⟨hx, hrest⟩ := List.pairwise_cons.mp hpw
    simp only [sortByStart]
    rw [ih hrest]
    cases rest with
    | nil => rfl
    | cons y rest2 =>
      simp only [insertByStart, if_pos (hx y (by simp))]

theorem sortSliceSpec_sorted_lt {input out : List TranscriptionResult}
    (hnd : (input.map (fun r => r.segment.startTime)).Nodup)
    (hs : sortSliceSpec input out) :
    out.Pairwise (fun x y => x.segment.startTime < y.segment.startTime) := by
  obtain ⟨hperm, hpw⟩ := hs
  have hnd2 : (out.map (fun r => r.segment.startTime)).Nodup :=
    ((hperm.map _).nodup_iff).mpr hnd
  have hne : out.Pairwise
      (fun x y => x.segment.startTime ≠ y.segment.startTime) :=
    List.pairwise_map.mp hnd2
  exact (hpw.and hne).imp (fun h => lt_of_le_of_ne h.1 h.2)

theorem sortSliceSpec_unique {input out₁ out₂ : List TranscriptionResult}
    (hnd : (input.map (fun r => r.segment.startTime)).Nodup)
    (h1 : sortSliceSpec input out₁) (h2 : sortSliceSpec input out₂) :
    out₁ = out₂ := by
  haveI : IsAntisymm TranscriptionResult
      (fun x y => x.segment.startTime < y.segment.startTime) :=
    ⟨fun a b hab hba => absurd hba (not_lt.mpr (le_of_lt hab))⟩
  exact List.eq_of_perm_of_sorted (h1.1.trans h2.1.symm)
    (sortSliceSpec_sorted_lt hnd h1) (sortSliceSpec_sorted_lt hnd h2)

theorem processWithCpp_done (env : TranscribeEnv) (plan : List AudioSegment)
    (order : List ℕ) (hexe : env.mainExeExists = true)
    (hord : order.Perm (List.range plan.length)) :
    ProcessWithCpp env plan order =
      ProcessOutcome.done (sortByStart (plan.map (mkResult env))) := by
  unfold ProcessWithCpp
  rw [if_neg (by simp [hexe])]
  rw [writeSlots_perm_map _ zeroResult order plan.length hord]
  rw [range_map_getD (mkResult env) zeroSegment plan]

/-- Concrete environment: engine sentinel present, directory creatable,
every invocation failing (error results avoid normalising `String.trim` in
concrete computations). -/
def envErrAll : TranscribeEnv :=
  ⟨true, true, fun _ => true, fun _ => Except.error "boom"⟩

/-- Concrete environment with the sentinel `main.exe` absent. -/
def envNoExe : TranscribeEnv :=
  ⟨false, true, fun _ => true, fun _ => Except.ok ""⟩

/-- Concrete environment where exactly the segment with filename index `0`
failed extraction, and its invocation consequently fails. -/
def envSeg0Fails : TranscribeEnv :=
  ⟨true, true, fun s => !(s.seqIndex == 0),
   fun s => if s.seqIndex = 0 then Except.error "boom" else Except.ok ""⟩

theorem cppFailMsg_ne_empty (e : String) : cppFailMsg e ≠ "" := by
  intro h
  have hlen := congrArg String.length h
  rw [cppFailMsg, String.length_append] at hlen
  have h0 : 0 < ("C++ whisper transcription failed: " : String).length := by
    decide
  have h2 : ("" : String).length = 0 := by decide
  rw [h2] at hlen
  omega

/-- Counterexample to claim C3 as stated: `ProcessWithCpp` re-sorts the
result slice by start time before returning (main.go:283-285), so for a plan
whose start times are not ascending, slot `0` of the returned collection
references `plan[1]`'s segment, not `plan[0]`'s. -/
theorem C3_cex_output_resorted :
    (ProcessWithCpp envErrAll [createSegment 10 30 0, createSegment 0 10 1]
        [0, 1]).resultsOrNil.map (fun r => r.segment) =
      [createSegment 0 10 1, createSegment 10 30 0] ∧
    createSegment 0 10 1 ≠ createSegment 10 30 0 := by
  constructor
  · norm_num [ProcessWithCpp, envErrAll, writeSlots, setSlot, mkResult,
      transcribeCpp, sortByStart, insertByStart, createSegment, cppFailMsg,
      ProcessOutcome.resultsOrNil, List.replicate, zeroResult, zeroSegment]
  · intro h
    have := congrArg AudioSegment.seqIndex h
    simp [createSegment] at this

/-- Claim C3 (amended): with the sentinel binary present, for every plan and
every worker-completion order, `ProcessWithCpp` returns the per-plan results
reordered by segment start time; the collection's length always equals the
plan's length, and whenever the plan's start times are strictly increasing
(true of every planner output) slot `i` references `plan[i]`'s segment —
independent of the completion order. -/
theorem C3_amended_fixed_slots (env : TranscribeEnv)
    (plan : List AudioSegment) (order : List ℕ)
    (hexe : env.mainExeExists = true)
    (hord : order.Perm (List.range plan.length)) :
    ProcessWithCpp env plan order =
      ProcessOutcome.done (sortByStart (plan.map (mkResult env))) ∧
    (ProcessWithCpp env plan order).resultsOrNil.length = plan.length ∧
    (plan.Pairwise (fun s t => s.startTime < t.startTime) →
      (ProcessWithCpp env plan order).resultsOrNil.map (fun r => r.segment) =
        plan) := by
  have hdone := processWithCpp_done env plan order hexe hord
  refine ⟨hdone, ?_, ?_⟩
  · rw [hdone]
    show (sortByStart (plan.map (mkResult env))).length = plan.length
    rw [sortByStart_length, List.length_map]
  · intro hinc
    rw [hdone]
    show (sortByStart (plan.map (mkResult env))).map (fun r => r.segment) =
      plan
    have hmap : (plan.map (mkResult env)).Pairwise
        (fun x y => x.segment.startTime < y.segment.startTime) := by
      rw [List.pairwise_map]
      refine hinc.imp ?_
      intro s t h
      rw [mkResult_segment env s hexe, mkResult_segment env t hexe]
      exact h
    rw [sortByStart_sorted_id _ hmap, List.map_map]
    have hcomp : ∀ s ∈ plan, ((fun r => r.segment) ∘ mkResult env) s = id s :=
      fun s _ => mkResult_segment env s hexe
    rw [List.map_congr_left hcomp, List.map_id]

/-- Witness for the amended C3: two segments, workers completing in reverse
order. -/
theorem C3_amended_fixed_slots_witness :
    envErrAll.mainExeExists = true ∧
    [1, 0].Perm (List.range
      ([createSegment 0 10 0, createSegment 10 30 1] : List AudioSegment).length) ∧
    (ProcessWithCpp envErrAll [createSegment 0 10 0, createSegment 10 30 1]
        [1, 0] =
      ProcessOutcome.done (sortByStart
        ([createSegment 0 10 0, createSegment 10 30 1].map
          (mkResult envErrAll))) ∧
    (ProcessWithCpp envErrAll [createSegment 0 10 0, createSegment 10 30 1]
        [1, 0]).resultsOrNil.length =
      ([createSegment 0 10 0, createSegment 10 30 1] : List AudioSegment).length ∧
    (([createSegment 0 10 0, createSegment 10 30 1] :
        List AudioSegment).Pairwise (fun s t => s.startTime < t.startTime) →
      (ProcessWithCpp envErrAll [createSegment 0 10 0, createSegment 10 30 1]
          [1, 0]).resultsOrNil.map (fun r => r.segment) =
        [createSegment 0 10 0, createSegment 10 30 1])) :=
  ⟨rfl, by decide,
    C3_amended_fixed_slots envErrAll [createSegment 0 10 0, createSegment 10 30 1]
      [1, 0] rfl (by decide)⟩

/-- Tied results (equal start times, different texts) for the C4
counterexample. -/
def tieA : TranscriptionResult := ⟨createSegment 0 10 0, "a", ""⟩

def tieB : TranscriptionResult := ⟨createSegment 0 10 0, "b", ""⟩

/-- Counterexample to claim C4 as stated: the sorting step is Go
`sort.Slice`, whose documented contract (`sortSliceSpec`) does not guarantee
stability; for an input with two results tied on start time, the swapped
output satisfies the contract while violating "ties broken by original slot
order" (a stable sort would have to return `[tieA, tieB]`). -/
theorem C4_cex_ties_not_stable :
    sortSliceSpec [tieA, tieB] [tieB, tieA] ∧ [tieB, tieA] ≠ [tieA, tieB] := by
  refine ⟨⟨List.Perm.swap tieA tieB [], ?_⟩, ?_⟩
  · norm_num [tieA, tieB, createSegment, List.pairwise_cons]
  · intro h
    have := congrArg (fun l => (l.headD zeroResult).text) h
    simp [tieA, tieB] at this

/-- Claim C4 (amended): any output admitted by the `sort.Slice` contract is
a permutation of the input sorted by `segment.start` ascending (realised
e.g. by the insertion sort `sortByStart`); when the input's start times are
pairwise distinct — as for every ResultSet coming from a planner plan — the
contract determines the output uniquely, making the assembled order
deterministic; for tied inputs the relative order is NOT specified, the
sort not being guaranteed stable. -/
theorem C4_amended_sorted_unique (input out₁ out₂ : List TranscriptionResult)
    (hnd : (input.map (fun r => r.segment.startTime)).Nodup)
    (h1 : sortSliceSpec input out₁) (h2 : sortSliceSpec input out₂) :
    out₁ = out₂ ∧ sortSliceSpec input (sortByStart input) ∧
      out₁.Pairwise (fun x y => x.segment.startTime ≤ y.segment.startTime) :=
  ⟨sortSliceSpec_unique hnd h1 h2, sortByStart_satisfies_spec input, h1.2⟩

/-- Results with distinct start times for the C4 witness. -/
def resFive : TranscriptionResult := ⟨createSegment 5 20 0, "x", ""⟩

def resTwo : TranscriptionResult := ⟨createSegment 2 5 1, "y", ""⟩

theorem C4_amended_sorted_unique_witness :
    ([resFive, resTwo].map (fun r => r.segment.startTime)).Nodup ∧
    sortSliceSpec [resFive, resTwo] [resTwo, resFive] ∧
    ([resTwo, resFive] = [resTwo, resFive] ∧
      sortSliceSpec [resFive, resTwo] (sortByStart [resFive, resTwo]) ∧
      [resTwo, resFive].Pairwise
        (fun x y => x.segment.startTime ≤ y.segment.startTime)) :=
  ⟨by norm_num [resFive, resTwo, createSegment],
    ⟨List.Perm.swap resFive resTwo [],
      by norm_num [resFive, resTwo, createSegment, List.pairwise_cons]⟩,
    C4_amended_sorted_unique [resFive, resTwo] [resTwo, resFive]
      [resTwo, resFive]
      (by norm_num [resFive, resTwo, createSegment])
      ⟨List.Perm.swap resFive resTwo [],
        by norm_num [resFive, resTwo, createSegment, List.pairwise_cons]⟩
      ⟨List.Perm.swap resFive resTwo [],
        by norm_num [resFive, resTwo, createSegment, List.pairwise_cons]⟩⟩

/-- Counterexample to claim C7 as stated: when the checked engine path
(`./whisper.cpp/build/bin/Release/main.exe`) is absent, `transcribeCpp` calls
`log.Fatal` (main.go:296), killing the whole process: the failure is NOT
captured in the segment's error field, and the run as a whole aborts. -/
theorem C7_cex_missing_binary_aborts :
    transcribeCpp envNoExe zeroSegment = TranscribeOutcome.fatal ∧
    ProcessWithCpp envNoExe [zeroSegment] [0] = ProcessOutcome.fatal := by
  exact ⟨rfl, rfl⟩

/-- Claim C7 (amended): with the sentinel binary present, every invocation
failure (nonzero engine exit, missing `whisper-cli.exe`, missing input file —
anything surfacing as a `CombinedOutput` error) is captured into that
segment's error field (text stays empty), successes set the trimmed text,
and no failure aborts other in-flight or pending invocations: the returned
collection still has one result per plan entry. Only the absence of the
separately checked `main.exe` aborts the run (see the counterexample). -/
theorem C7_amended_per_segment_errors (env : TranscribeEnv)
    (plan : List AudioSegment) (order : List ℕ)
    (hexe : env.mainExeExists = true)
    (hord : order.Perm (List.range plan.length)) :
    ProcessWithCpp env plan order =
      ProcessOutcome.done (sortByStart (plan.map (mkResult env))) ∧
    (sortByStart (plan.map (mkResult env))).length = plan.length ∧
    ∀ r ∈ sortByStart (plan.map (mkResult env)),
      (∀ e, env.cliRun r.segment = Except.error e →
        r.text = "" ∧ r.error = cppFailMsg e) ∧
      (∀ t, env.cliRun r.segment = Except.ok t →
        r.text = t.trim ∧ r.error = "") := by
  refine ⟨processWithCpp_done env plan order hexe hord, ?_, ?_⟩
  · rw [sortByStart_length, List.length_map]
  · intro r hr
    have hr2 : r ∈ plan.map (mkResult env) := (sortByStart_perm _).mem_iff.mp hr
    obtain ⟨s, hs, rfl⟩ := List.mem_map.mp hr2
    have hseg : (mkResult env s).segment = s := mkResult_segment env s hexe
    rw [hseg]
    constructor
    · intro e he
      rw [mkResult_eq env s hexe, he]
      exact ⟨rfl, rfl⟩
    · intro t ht
      rw [mkResult_eq env s hexe, ht]
      exact ⟨rfl, rfl⟩

/-- Witness for the amended C7: a single segment whose invocation fails. -/
theorem C7_amended_per_segment_errors_witness :
    envErrAll.mainExeExists = true ∧
    [0].Perm (List.range ([createSegment 0 10 0] : List AudioSegment).length) ∧
    (ProcessWithCpp envErrAll [createSegment 0 10 0] [0] =
      ProcessOutcome.done (sortByStart
        ([createSegment 0 10 0].map (mkResult envErrAll))) ∧
    (sortByStart ([createSegment 0 10 0].map (mkResult envErrAll))).length =
      ([createSegment 0 10 0] : List AudioSegment).length ∧
    ∀ r ∈ sortByStart ([createSegment 0 10 0].map (mkResult envErrAll)),
      (∀ e, envErrAll.cliRun r.segment = Except.error e →
        r.text = "" ∧ r.error = cppFailMsg e) ∧
      (∀ t, envErrAll.cliRun r.segment = Except.ok t →
        r.text = t.trim ∧ r.error = "")) :=
  ⟨rfl, by decide,
    C7_amended_per_segment_errors envErrAll [createSegment 0 10 0] [0] rfl
      (by decide)⟩

/-- Claim C8: `ExtractAudioSegments` returns a non-nil error exactly when
creating the output directory fails (per-segment extraction failures are only
logged); and — given that a missing extracted file makes that segment's
engine invocation fail — such a segment surfaces in the transcription phase
as a result with non-empty error and empty text, while every other segment's
result is still populated (one result per plan entry, successes keeping an
empty error). -/
theorem C8_extract_failure_isolated (env : TranscribeEnv)
    (plan : List AudioSegment) (order : List ℕ)
    (hexe : env.mainExeExists = true)
    (hord : order.Perm (List.range plan.length))
    (hmk : env.mkdirOk = true)
    (hlink : ∀ seg ∈ plan, env.extractOk seg = false →
      exceptFailed (env.cliRun seg) = true) :
    ExtractAudioSegments env plan = none ∧
    (∀ (env' : TranscribeEnv) (segs : List AudioSegment),
      (ExtractAudioSegments env' segs).isSome ↔ env'.mkdirOk = false) ∧
    ProcessWithCpp env plan order =
      ProcessOutcome.done (sortByStart (plan.map (mkResult env))) ∧
    ((sortByStart (plan.map (mkResult env))).map (fun r => r.segment)).Perm
      plan ∧
    ∀ r ∈ sortByStart (plan.map (mkResult env)),
      (env.extractOk r.segment = false → r.error ≠ "" ∧ r.text = "") ∧
      (exceptFailed (env.cliRun r.segment) = false → r.error = "") := by
  refine ⟨by simp [ExtractAudioSegments, hmk], ?_,
    processWithCpp_done env plan order hexe hord, ?_, ?_⟩
  · intro env' segs
    by_cases h : env'.mkdirOk <;> simp [ExtractAudioSegments, h]
  · have hperm := (sortByStart_perm (plan.map (mkResult env))).map
      (fun r => r.segment)
    have hms : (plan.map (mkResult env)).map (fun r => r.segment) = plan := by
      rw [List.map_map]
      have hcomp : ∀ s ∈ plan, ((fun r => r.segment) ∘ mkResult env) s = id s :=
        fun s _ => mkResult_segment env s hexe
      rw [List.map_congr_left hcomp, List.map_id]
    rw [hms] at hperm
    exact hperm
  · intro r hr
    have hr2 : r ∈ plan.map (mkResult env) := (sortByStart_perm _).mem_iff.mp hr
    obtain ⟨s, hs, rfl⟩ := List.mem_map.mp hr2
    have hseg : (mkResult env s).segment = s := mkResult_segment env s hexe
    rw [hseg]
    constructor
    · intro hex
      have hfail := hlink s hs hex
      cases hcli : env.cliRun s with
      | ok t0 =>
        rw [hcli] at hfail
        simp [exceptFailed] at hfail
      | error e =>
        rw [mkResult_eq env s hexe, hcli]
        exact ⟨cppFailMsg_ne_empty e, rfl⟩
    · intro hok
      cases hcli : env.cliRun s with
      | ok t0 =>
        rw [mkResult_eq env s hexe, hcli]
      | error e =>
        rw [hcli] at hok
        simp [exceptFailed] at hok

/-- Witness for C8: segment with index 0 failed extraction (its invocation
fails), the other succeeds. -/
theorem C8_extract_failure_isolated_witness :
    envSeg0Fails.mainExeExists = true ∧
    [1, 0].Perm (List.range
      ([createSegment 0 10 0, createSegment 10 30 1] : List AudioSegment).length) ∧
    envSeg0Fails.mkdirOk = true ∧
    (∀ seg ∈ ([createSegment 0 10 0, createSegment 10 30 1] :
        List AudioSegment), envSeg0Fails.extractOk seg = false →
      exceptFailed (envSeg0Fails.cliRun seg) = true) ∧
    (ExtractAudioSegments envSeg0Fails
        [createSegment 0 10 0, createSegment 10 30 1] = none ∧
    (∀ (env' : TranscribeEnv) (segs : List AudioSegment),
      (ExtractAudioSegments env' segs).isSome ↔ env'.mkdirOk = false) ∧
    ProcessWithCpp envSeg0Fails [createSegment 0 10 0, createSegment 10 30 1]
        [1, 0] =
      ProcessOutcome.done (sortByStart
        ([createSegment 0 10 0, createSegment 10 30 1].map
          (mkResult envSeg0Fails))) ∧
    ((sortByStart ([createSegment 0 10 0, createSegment 10 30 1].map
        (mkResult envSeg0Fails))).map (fun r => r.segment)).Perm
      [createSegment 0 10 0, createSegment 10 30 1] ∧
    ∀ r ∈ sortByStart ([createSegment 0 10 0, createSegment 10 30 1].map
        (mkResult envSeg0Fails)),
      (envSeg0Fails.extractOk r.segment = false →
        r.error ≠ "" ∧ r.text = "") ∧
      (exceptFailed (envSeg0Fails.cliRun r.segment) = false →
        r.error = "")) :=
  ⟨rfl, by decide, rfl, by decide,
    C8_extract_failure_isolated envSeg0Fails
      [createSegment 0 10 0, createSegment 10 30 1] [1, 0] rfl (by decide)
      rfl (by decide)⟩

/-!
`OutputResults` (main.go:357-399). The JSON document (`json.MarshalIndent`)
is an external serialisation and not modelled; claim C9 concerns the text
file and the console echo. `%.1f` is modelled over the exact rationals with
round-half-to-even at the tenths digit (the IEEE-754 default rounding).
-/

/-- Decimal digit characters; `digCh n` is the digit character of `n < 10`. -/
def digCh (n : ℕ) : Char := ("0123456789".data).getD n '0'

/-- Decimal rendering of a natural number, most significant digit first
(first argument is fuel). -/
def natDigits : ℕ → ℕ → List Char
  | 0, _ => []
  | fuel + 1, n =>
    if n < 10 then [digCh n]
    else natDigits fuel (n / 10) ++ [digCh (n % 10)]

def natStr (n : ℕ) : String := ⟨natDigits (n + 1) n⟩

/-- The value of `q` rounded to tenths (ties to even), as an integer number
of tenths: the digits printed by `%.1f`. -/
def roundTenths (q : ℚ) : ℤ :=
  let x := 10 * q
  if x - ⌊x⌋ < 1 / 2 then ⌊x⌋
  else if 1 / 2 < x - ⌊x⌋ then ⌊x⌋ + 1
  else if 2 ∣ ⌊x⌋ then ⌊x⌋ else ⌊x⌋ + 1

/-- `fmt.Sprintf("%.1f", q)`. -/
def fmt1 (q : ℚ) : String :=
  if roundTenths q < 0 then
    "-" ++ natStr ((roundTenths q).natAbs / 10) ++ "." ++
      natStr ((roundTenths q).natAbs % 10)
  else
    natStr ((roundTenths q).toNat / 10) ++ "." ++
      natStr ((roundTenths q).toNat % 10)

/-- One report line (main.go:374-380): `[start s-end s] text` for successes
or `[start s-end s] ERROR: message` for failures, newline-terminated; the
branch tests `result.Error != ""`. -/
def fmtLine (r : TranscriptionResult) : String :=
  if r.error ≠ "" then
    "[" ++ fmt1 r.segment.startTime ++ "s-" ++ fmt1 r.segment.endTime ++
      "s] ERROR: " ++ r.error ++ "\n"
  else
    "[" ++ fmt1 r.segment.startTime ++ "s-" ++ fmt1 r.segment.endTime ++
      "s] " ++ r.text ++ "\n"

/-- `fmt.Println("\n=== Transcription Results ===")` (main.go:388). -/
def consoleHeader : String := "\n=== Transcription Results ===\n"

/-- The text-file content and console echo of `OutputResults`: the file is a
builder seeded with the UTF-8 byte-order marker and one `fmtLine` per result
in input order (main.go:371-381); the console prints the header, then for a
failed result the same formatted line, but for a success only `result.Text`
verbatim (`fmt.Printf(result.Text)`, main.go:394) — without the time prefix
and without a newline. -/
def OutputResults (results : List TranscriptionResult) : String × String :=
  (results.foldl (fun acc r => acc ++ fmtLine r) "\uFEFF",
   results.foldl (fun acc r =>
     acc ++ (if r.error ≠ "" then fmtLine r else r.text)) consoleHeader)

/-- Concatenation of a list of strings. -/
def strConcat : List String → String
  | [] => ""
  | x :: rest => x ++ strConcat rest

theorem foldl_strConcat {α : Type} (g : α → String) :
    ∀ (l : List α) (init : String),
      l.foldl (fun acc x => acc ++ g x) init = init ++ strConcat (l.map g) := by
  intro l
  induction l with
  | nil =>
    intro init
    apply String.ext
    simp [strConcat, String.data_append]
  | cons x rest ih =>
    intro init
    simp only [List.foldl_cons, List.map_cons, strConcat]
    rw [ih, String.append_assoc]

theorem strConcat_count (c : Char) :
    ∀ l : List String,
      (strConcat l).data.count c = (l.map (fun s => s.data.count c)).sum := by
  intro l
  induction l with
  | nil => rfl
  | cons x rest ih =>
    simp only [strConcat, String.data_append, List.count_append, List.map_cons,
      List.sum_cons, ih]

theorem digCh_mem (n : ℕ) : digCh n ∈ "0123456789".data := by
  unfold digCh
  by_cases h : n < ("0123456789".data).length
  · rw [List.getD_eq_getElem _ _ h]
    exact List.getElem_mem h
  · rw [List.getD_eq_default _ _ (not_lt.mp h)]
    decide

theorem natDigits_mem :
    ∀ (fuel n : ℕ), ∀ c ∈ natDigits fuel n, c ∈ "0123456789".data := by
  intro fuel
  induction fuel with
  | zero => intro n c hc; simp [natDigits] at hc
  | succ f ih =>
    intro n c hc
    by_cases h : n < 10
    · simp only [natDigits, if_pos h, List.mem_singleton] at hc
      subst hc
      exact digCh_mem n
    · simp only [natDigits, if_neg h, List.mem_append,
        List.mem_singleton] at hc
      rcases hc with hc | hc
      · exact ih (n / 10) c hc
      · subst hc
        exact digCh_mem (n % 10)

theorem natStr_count_nl (n : ℕ) : (natStr n).data.count '\n' = 0 := by
  refine List.count_eq_zero.mpr ?_
  intro hc
  have := natDigits_mem (n + 1) n _ hc
  revert this
  decide

theorem fmt1_count_nl (q : ℚ) : (fmt1 q).data.count '\n' = 0 := by
  unfold fmt1
  by_cases h : roundTenths q < 0
  · rw [if_pos h]
    simp only [String.data_append, List.count_append, natStr_count_nl]
    decide
  · rw [if_neg h]
    simp only [String.data_append, List.count_append, natStr_count_nl]
    decide

theorem fmtLine_count_nl (r : TranscriptionResult)
    (ht : '\n' ∉ r.text.data) (he : '\n' ∉ r.error.data) :
    (fmtLine r).data.count '\n' = 1 := by
  have hct : r.text.data.count '\n' = 0 := List.count_eq_zero.mpr ht
  have hce : r.error.data.count '\n' = 0 := List.count_eq_zero.mpr he
  unfold fmtLine
  by_cases h : r.error ≠ ""
  · rw [if_pos h]
    simp only [String.data_append, List.count_append, fmt1_count_nl, hce]
    decide
  · rw [if_neg h]
    simp only [String.data_append, List.count_append, fmt1_count_nl, hct]
    decide

/-- Counterexample to claim C9 as stated: the console does NOT echo the same
content as the file. For a successful result the file line is
`[0.0s-10.0s] hi` with the newline, while the console prints only the bare
`hi` (`fmt.Printf(result.Text)` has no time-range prefix and no newline). -/
theorem C9_cex_console_not_echo :
    (OutputResults [⟨createSegment 0 10 0, "hi", ""⟩]).1 =
      "\uFEFF" ++ fmtLine ⟨createSegment 0 10 0, "hi", ""⟩ ∧
    (OutputResults [⟨createSegment 0 10 0, "hi", ""⟩]).2 =
      consoleHeader ++ "hi" ∧
    fmtLine ⟨createSegment 0 10 0, "hi", ""⟩ ≠ "hi" := by
  refine ⟨rfl, rfl, ?_⟩
  intro h
  have h1 : (fmtLine ⟨createSegment 0 10 0, "hi", ""⟩).data.count '\n' = 1 :=
    fmtLine_count_nl _ (by decide) (by decide)
  rw [h] at h1
  have h0 : ("hi" : String).data.count '\n' = 0 := by decide
  rw [h0] at h1
  exact absurd h1 (by decide)

/-- Claim C9 (amended): the text file begins with a UTF-8 byte-order marker
followed by exactly one newline-terminated line per result, in the given
(chronological, since the caller passes the sorted ResultSet) order, each of
the form `[start s-end s] text` or `[start s-end s] ERROR: message`
(`fmtLine`), nothing summarized or truncated — when texts and error messages
are newline-free the file contains exactly one line per result; the console
prints a header and then, for failures, the same formatted line, but for
successes only the bare text, without the time prefix and without a
newline. -/
theorem C9_amended_report_file (results : List TranscriptionResult)
    (hNL : ∀ r ∈ results, '\n' ∉ r.text.data ∧ '\n' ∉ r.error.data) :
    (OutputResults results).1 =
      "\uFEFF" ++ strConcat (results.map fmtLine) ∧
    ((OutputResults results).1).data.count '\n' = results.length ∧
    (OutputResults results).2 = consoleHeader ++
      strConcat (results.map
        (fun r => if r.error ≠ "" then fmtLine r else r.text)) := by
  have h1 : (OutputResults results).1 =
      "\uFEFF" ++ strConcat (results.map fmtLine) :=
    foldl_strConcat fmtLine results "\uFEFF"
  refine ⟨h1, ?_, foldl_strConcat _ results consoleHeader⟩
  rw [h1, String.data_append, List.count_append, strConcat_count]
  have hbom : ("\uFEFF" : String).data.count '\n' = 0 := by decide
  rw [hbom]
  have hmap : (results.map fmtLine).map (fun s => s.data.count '\n') =
      List.replicate results.length 1 := by
    refine List.eq_replicate_iff.mpr ⟨by simp, ?_⟩
    intro b hb
    rw [List.map_map] at hb
    obtain ⟨r, hr, rfl⟩ := List.mem_map.mp hb
    exact fmtLine_count_nl r (hNL r hr).1 (hNL r hr).2
  rw [hmap, List.sum_replicate]
  simp

/-- Witness for the amended C9 at a single failed result. -/
theorem C9_amended_report_file_witness :
    (∀ r ∈ ([⟨createSegment 0 10 0, "", "boom"⟩] : List TranscriptionResult),
      '\n' ∉ r.text.data ∧ '\n' ∉ r.error.data) ∧
    ((OutputResults [⟨createSegment 0 10 0, "", "boom"⟩]).1 =
        "\uFEFF" ++ strConcat
          ([⟨createSegment 0 10 0, "", "boom"⟩].map fmtLine) ∧
      ((OutputResults [⟨createSegment 0 10 0, "", "boom"⟩]).1).data.count
          '\n' =
        ([⟨createSegment 0 10 0, "", "boom"⟩] :
          List TranscriptionResult).length ∧
      (OutputResults [⟨createSegment 0 10 0, "", "boom"⟩]).2 =
        consoleHeader ++
          strConcat ([⟨createSegment 0 10 0, "", "boom"⟩].map
            (fun r => if r.error ≠ "" then fmtLine r else r.text))) :=
  ⟨by decide, C9_amended_report_file _ (by decide)⟩

example :
    CreateSegments newAudioAnalyzer [12, 45, 90] 100 =
      [createSegment 0 12 0, createSegment 12 45 1, createSegment 45 90 2,
       createSegment 90 100 3] := by
  norm_num [CreateSegments, createSegmentsRaw, createSegmentsLoop, minGap,
    splitLongSegments, splitLongLoop, createSegment, splitOne, numSplits,
    splitDur, newAudioAnalyzer] <;> decide

example :
    (splitLongSegments newAudioAnalyzer [createSegment 0 120 0]).length = 3 := by
  norm_num [splitLongSegments, splitLongLoop, createSegment, splitOne,
    numSplits, splitDur, newAudioAnalyzer] <;> decide
